import Mathlib

/-!
Verification of the line-layout routines of `bear::visual::text_layout`
(`src/bear-engine/core/src/visual/code/text_layout.cpp`).

The text is a list of characters; glyph advances, sprite heights and the
box size are natural numbers (the spec requires them non-negative), and
coordinates are integers.  The scan loops of `compute_line_width` and
`compute_line_height_above_baseline` walk an index `last`/`first` through
`m_text`; here each loop additionally consumes the list `m_text.drop last`
structurally, so that the functions compute by evaluation.
-/

namespace Bear

/-- Modelled from the spec: the numeric typedef `bear::visual::size_type`
lives in a header that is not under `src/`.  The spec fixes widths,
advances and box dimensions as non-negative (*"advances are non-negative;
width arithmetic is additive and monotonic"*), so sizes are modelled as
natural numbers.  The definitions below use `Nat` directly; this
abbreviation records the modelling choice. -/
abbrev size_type : Type := Nat

/-- Modelled from the spec: the numeric typedef
`bear::visual::coordinate_type` lives in a header that is not under
`src/`.  The spec lets the implementer pick one consistent numeric type
and fixes *"truncation toward zero"* as the reference behavior of the
centering division, so coordinates are modelled as integers.  (Every
value actually divided is non-negative, where all integer division
conventions coincide with truncation toward zero.)  The definitions below
use `Nat` and `Int` directly; this abbreviation records the modelling
choice. -/
abbrev coordinate_type : Type := Int

/-- Per-character metrics returned by `font::get_metrics`: the horizontal
advance (`get_advance().x`) and the vertical bearing (`get_bearing().y`). -/
structure glyph_metrics where
  advance_x : Nat
  bearing_y : Int
deriving DecidableEq

/-- The font capability: per-character metrics (`get_metrics`) and the
rendered sprite height (`get_sprite(c).height()`). -/
structure font where
  get_metrics : Char → glyph_metrics
  get_sprite_height : Char → Nat

/-- The size of the box around the text (`size_box_type`); only `x`
(the width) is used by the layout routines. -/
structure size_box_type where
  x : Nat
  y : Nat
deriving DecidableEq

/-- `text_align::horizontal_align`. -/
inductive horizontal_align where
  | align_left
  | align_center
  | align_right
deriving DecidableEq

/-- The `text_layout` class: box size, text, font and alignment. -/
structure text_layout where
  m_size : size_box_type
  m_text : List Char
  m_font : font
  m_horizontal_align : horizontal_align

/-- Helper for `find_first_not_of_space`: advances the index `i` past the
leading spaces of the remaining characters `l`. -/
def skip_spaces : List Char → Nat → Nat
  | [], i => i
  | c :: rest, i => if c = ' ' then skip_spaces rest (i + 1) else i

/-- `m_text.find_first_not_of(' ', first)`, with the `npos` case already
mapped to the text length (lines 76–79 of the source): the index of the
first non-space character at or after `first`, or `text.length` if none
exists.  The `min` accounts for `first` beyond the end of the text, where
`find_first_not_of` returns `npos`. -/
def find_first_not_of_space (text : List Char) (first : Nat) : Nat :=
  skip_spaces (text.drop first) (min first text.length)

/-- The local state of the scan loop of `compute_line_width` (lines
81–110): the current index, the resolved width, the accumulated candidate
width, and the recorded start of the last space sequence (`npos` is
`none`). -/
structure scan_state where
  last : Nat
  result : Nat
  candidate_length : Nat
  last_space_sequence : Option Nat
deriving DecidableEq

/-- The update of `result` and `last_space_sequence` performed at the top
of the loop body of `compute_line_width` (lines 93–102): on the first
space of a space run, record the run start and the candidate width; on a
non-space character, reset the recorded run to `npos` (`none`). -/
def space_update (c : Char) (last result candidate_length : Nat)
    (last_space_sequence : Option Nat) : Nat × Option Nat :=
  if c = ' ' then
    match last_space_sequence with
    | none => (candidate_length, some last)
    | some s => (result, some s)
  else (result, none)

/-- The scan loop of `compute_line_width` (lines 91–110).  The first list
argument is `m_text.drop last`, consumed structurally: it is empty exactly
when `last == text_length`.  Each step mirrors the loop body: apply
`space_update` (lines 93–102), then stop (`break`) when adding the
advance of the character to the candidate width would exceed `m_size.x`
(lines 104–106), else accumulate and advance (lines 108–109). -/
def line_width_loop (f : font) (size_x : Nat) :
    List Char → Nat → Nat → Nat → Option Nat → scan_state
  | [], last, result, candidate_length, last_space_sequence =>
      ⟨last, result, candidate_length, last_space_sequence⟩
  | c :: rest, last, result, candidate_length, last_space_sequence =>
      if c = '\n' then ⟨last, result, candidate_length, last_space_sequence⟩
      else
        let rs := space_update c last result candidate_length last_space_sequence
        let width := (f.get_metrics c).advance_x
        if candidate_length + width > size_x then
          ⟨last, rs.1, candidate_length, rs.2⟩
        else
          line_width_loop f size_x rest (last + 1) rs.1 (candidate_length + width) rs.2

/-- `text_layout::compute_line_width` (lines 70–128): skip the leading
spaces, run the scan loop, then adjust the result as in lines 112–122. -/
def compute_line_width (tl : text_layout) (first : Nat) : Nat :=
  let text_length := tl.m_text.length
  let start := find_first_not_of_space tl.m_text first
  let out := line_width_loop tl.m_font tl.m_size.x (tl.m_text.drop start) start 0 0 none
  if out.last_space_sequence = none then
    if out.last = text_length ∨ tl.m_text.getD out.last ' ' = '\n' then
      out.candidate_length
    else if out.result = 0 then
      out.candidate_length
    else out.result
  else out.result

/-- `text_layout::compute_line_left` (lines 43–58). -/
def compute_line_left (tl : text_layout) (first : Nat) : Int :=
  if tl.m_horizontal_align = horizontal_align.align_left then 0
  else
    let line_width := compute_line_width tl first
    let result : Int := (tl.m_size.x : Int) - (line_width : Int)
    if tl.m_horizontal_align = horizontal_align.align_center then result / 2
    else result

/-- The scan loop of `compute_line_height_above_baseline` (lines
150–172).  The list argument is `m_text.drop first`, consumed
structurally; the loop stops at the end of the text, at a newline, or
when the accumulated line width exceeds `m_size.x`, and otherwise keeps
the running maximum of `sprite height + bearing.y`. -/
def line_ascent_loop (f : font) (size_x : Nat) :
    List Char → Int → Nat → Int
  | [], result, _ => result
  | c :: rest, result, line_width =>
      if c = '\n' then result
      else
        let lw := line_width + (f.get_metrics c).advance_x
        if lw > size_x then result
        else
          line_ascent_loop f size_x rest
            (max result ((f.get_sprite_height c : Int) + (f.get_metrics c).bearing_y)) lw

/-- `text_layout::compute_line_height_above_baseline` (lines 136–175). -/
def compute_line_height_above_baseline (tl : text_layout) (first : Nat) : Int :=
  line_ascent_loop tl.m_font tl.m_size.x
    (tl.m_text.drop (find_first_not_of_space tl.m_text first)) 0 0

/-- The index at which the line beginning at `first` starts after the
leading-space skip. -/
def line_start (tl : text_layout) (first : Nat) : Nat :=
  find_first_not_of_space tl.m_text first

/-- The final state of the scan loop of `compute_line_width` for the line
beginning at `first`; in particular `(line_scan tl first).last` is the
index at which the scan stopped. -/
def line_scan (tl : text_layout) (first : Nat) : scan_state :=
  line_width_loop tl.m_font tl.m_size.x
    (tl.m_text.drop (line_start tl first)) (line_start tl first) 0 0 none

/-- The sum of the advances of the characters of `l`. -/
def advance_total (f : font) (l : List Char) : Nat :=
  (l.map (fun c => (f.get_metrics c).advance_x)).sum

/-- The candidate width accumulated by the scan between the absolute
indices `a` (included) and `b` (excluded): the sum of the advances of the
characters `m_text[a..b)`. -/
def line_advance_sum (tl : text_layout) (a b : Nat) : Nat :=
  advance_total tl.m_font ((tl.m_text.drop a).take (b - a))

/-! ### Concrete fixtures used by the witnesses and counterexamples -/

/-- A font where every character has advance 10, no vertical bearing, and
sprite height 12 (the test font of section 8 of the spec). -/
def f10 : font := ⟨fun _ => ⟨10, 0⟩, fun _ => 12⟩

/-- A font like `f10` except that the sprite of the space character is
100 high. -/
def f_sp100 : font := ⟨fun _ => ⟨10, 0⟩, fun c => if c = ' ' then 100 else 12⟩

/-- A font where the character `a` has advance 0 and every other
character has advance 30. -/
def f_zero : font := ⟨fun c => if c = 'a' then ⟨0, 0⟩ else ⟨30, 0⟩, fun _ => 12⟩

/-- A font where every character has advance 30. -/
def f_wide : font := ⟨fun _ => ⟨30, 0⟩, fun _ => 12⟩

/-- A font where the character `a` has advance 0, the space has advance
10, and every other character has advance 30. -/
def f_c3x : font :=
  ⟨fun c => if c = 'a' then ⟨0, 0⟩ else if c = ' ' then ⟨10, 0⟩ else ⟨30, 0⟩, fun _ => 12⟩

def tl_c2a : text_layout := ⟨⟨35, 100⟩, "ab cd".toList, f10, horizontal_align.align_left⟩
def tl_c3x : text_layout := ⟨⟨25, 100⟩, "a b".toList, f_c3x, horizontal_align.align_left⟩
def tl_c3b : text_layout := ⟨⟨35, 100⟩, "ab cd".toList, f10, horizontal_align.align_left⟩
def tl_c2b : text_layout := ⟨⟨35, 100⟩, "ab cd".toList, f_sp100, horizontal_align.align_left⟩
def tl_c3 : text_layout := ⟨⟨25, 100⟩, "ab cde".toList, f10, horizontal_align.align_left⟩
def tl_c4 : text_layout := ⟨⟨100, 100⟩, "ab ".toList, f10, horizontal_align.align_left⟩
def tl_c5 : text_layout := ⟨⟨25, 100⟩, "abcdef".toList, f10, horizontal_align.align_left⟩
def tl_c5x : text_layout := ⟨⟨25, 100⟩, "ab".toList, f_zero, horizontal_align.align_left⟩
def tl_c6 : text_layout := ⟨⟨20, 100⟩, "ab".toList, f10, horizontal_align.align_left⟩
def tl_c7 : text_layout := ⟨⟨25, 100⟩, "ab cde".toList, f10, horizontal_align.align_center⟩
def tl_c8 : text_layout := ⟨⟨25, 100⟩, "   ".toList, f10, horizontal_align.align_left⟩
def tl_c10 : text_layout := ⟨⟨25, 100⟩, "x".toList, f_wide, horizontal_align.align_left⟩

/-! ### List helpers -/

lemma getD_drop (l : List Char) (m n : Nat) (d : Char) :
    (l.drop m).getD n d = l.getD (m + n) d := by
  induction l generalizing m n with
  | nil => simp [List.getD]
  | cons x xs ih =>
    cases m with
    | zero => simp
    | succ k =>
      have h1 : k + 1 + n = (k + n) + 1 := by omega
      simp only [List.drop, h1, List.getD_cons_succ]
      exact ih k n

lemma drop_cons (l : List Char) (n : Nat) (c : Char) (r : List Char)
    (h : l.drop n = c :: r) : l.drop (n + 1) = r := by
  have h1 : (l.drop n).drop 1 = l.drop (n + 1) := List.drop_drop 1 n l
  rw [h] at h1
  simp at h1
  exact h1.symm

lemma take_snoc_of_drop (l : List Char) :
    ∀ (n : Nat) (c : Char) (r : List Char), l.drop n = c :: r →
      l.take (n + 1) = l.take n ++ [c] := by
  induction l with
  | nil => intro n c r h; simp at h
  | cons x xs ih =>
    intro n c r h
    cases n with
    | zero =>
      simp only [List.drop] at h
      cases h
      simp
    | succ k =>
      simp only [List.drop] at h
      simp [ih k c r h]

lemma length_lt_of_drop_cons (l : List Char) (n : Nat) (c : Char) (r : List Char)
    (h : l.drop n = c :: r) : n < l.length := by
  by_contra hn
  rw [List.drop_eq_nil_of_le (Nat.le_of_not_lt hn)] at h
  exact List.noConfusion h

lemma getD_of_drop_cons (l : List Char) (n : Nat) (c : Char) (r : List Char)
    (h : l.drop n = c :: r) (d : Char) : l.getD n d = c := by
  have := getD_drop l n 0 d
  rw [h] at this
  simpa using this.symm

/-! ### Advance sums -/

lemma advance_total_nil (f : font) : advance_total f [] = 0 := rfl

lemma advance_total_append (f : font) (l1 l2 : List Char) :
    advance_total f (l1 ++ l2) = advance_total f l1 + advance_total f l2 := by
  simp [advance_total]

lemma advance_total_singleton (f : font) (c : Char) :
    advance_total f [c] = (f.get_metrics c).advance_x := by
  simp [advance_total]

/-! ### Properties of the leading-space skip -/

lemma skip_spaces_ge : ∀ (l : List Char) (i : Nat), i ≤ skip_spaces l i := by
  intro l
  induction l with
  | nil => intro i; simp [skip_spaces]
  | cons c rest ih =>
    intro i
    simp only [skip_spaces]
    split
    · exact Nat.le_trans (Nat.le_succ i) (ih (i + 1))
    · exact Nat.le_refl i

lemma skip_spaces_le : ∀ (l : List Char) (i : Nat), skip_spaces l i ≤ i + l.length := by
  intro l
  induction l with
  | nil => intro i; simp [skip_spaces]
  | cons c rest ih =>
    intro i
    simp only [skip_spaces]
    split
    · have := ih (i + 1)
      simpa [Nat.add_comm, Nat.add_left_comm, Nat.add_assoc] using this
    · exact Nat.le_add_right i _

lemma skip_spaces_all (l : List Char) (hsp : ∀ c ∈ l, c = ' ') :
    ∀ i, skip_spaces l i = i + l.length := by
  induction l with
  | nil => intro i; simp [skip_spaces]
  | cons c rest ih =>
    intro i
    have hc : c = ' ' := hsp c (List.mem_cons_self c rest)
    simp only [skip_spaces, if_pos hc]
    have := ih (fun x hx => hsp x (List.mem_cons_of_mem c hx)) (i + 1)
    simp only [this, List.length_cons]
    omega

lemma skip_spaces_getD : ∀ (l : List Char) (i : Nat),
    skip_spaces l i - i < l.length → l.getD (skip_spaces l i - i) ' ' ≠ ' ' := by
  intro l
  induction l with
  | nil => intro i h; simp at h
  | cons c rest ih =>
    intro i h
    by_cases hc : c = ' '
    · have hskip : skip_spaces (c :: rest) i = skip_spaces rest (i + 1) := by
        simp [skip_spaces, hc]
      rw [hskip] at h ⊢
      have hge : i + 1 ≤ skip_spaces rest (i + 1) := skip_spaces_ge rest (i + 1)
      have hlt : skip_spaces rest (i + 1) - (i + 1) < rest.length := by
        simp only [List.length_cons] at h
        omega
      have := ih (i + 1) hlt
      have harith : skip_spaces rest (i + 1) - i = (skip_spaces rest (i + 1) - (i + 1)) + 1 := by
        omega
      rw [harith]
      simpa [List.getD] using this
    · have hskip : skip_spaces (c :: rest) i = i := by simp [skip_spaces, hc]
      rw [hskip]
      simpa [List.getD] using hc

lemma find_first_not_of_space_le (text : List Char) (first : Nat) :
    find_first_not_of_space text first ≤ text.length := by
  unfold find_first_not_of_space
  have h := skip_spaces_le (text.drop first) (min first text.length)
  have hlen : (text.drop first).length = text.length - first := List.length_drop first text
  omega

lemma find_first_not_of_space_char (text : List Char) (first : Nat)
    (h : find_first_not_of_space text first < text.length) :
    text.getD (find_first_not_of_space text first) ' ' ≠ ' ' := by
  unfold find_first_not_of_space at h ⊢
  rcases Nat.le_total first text.length with hle | hge
  · have hmin : min first text.length = first := Nat.min_eq_left hle
    rw [hmin] at h ⊢
    have hge1 : first ≤ skip_spaces (text.drop first) first := skip_spaces_ge _ _
    have hlt : skip_spaces (text.drop first) first - first < (text.drop first).length := by
      have hlen : (text.drop first).length = text.length - first := List.length_drop first text
      omega
    have := skip_spaces_getD (text.drop first) first hlt
    rw [getD_drop] at this
    have harith : first + (skip_spaces (text.drop first) first - first)
        = skip_spaces (text.drop first) first := by omega
    rwa [harith] at this
  · exfalso
    have hdrop : text.drop first = [] := List.drop_eq_nil_of_le hge
    rw [hdrop] at h
    simp only [skip_spaces] at h
    omega

/-! ### Properties of the width-scan loop -/

lemma line_width_loop_nil (f : font) (sx : Nat) (last result cand : Nat) (lss : Option Nat) :
    line_width_loop f sx [] last result cand lss = ⟨last, result, cand, lss⟩ := rfl

lemma line_width_loop_newline (f : font) (sx : Nat) (rest : List Char)
    (last result cand : Nat) (lss : Option Nat) :
    line_width_loop f sx ('\n' :: rest) last result cand lss = ⟨last, result, cand, lss⟩ := by
  simp [line_width_loop]

lemma line_width_loop_stop (f : font) (sx : Nat) (c : Char) (rest : List Char)
    (last result cand : Nat) (lss : Option Nat) (hc : c ≠ '\n')
    (hover : cand + (f.get_metrics c).advance_x > sx) :
    line_width_loop f sx (c :: rest) last result cand lss =
      ⟨last, (space_update c last result cand lss).1, cand,
        (space_update c last result cand lss).2⟩ := by
  simp only [line_width_loop, if_neg hc, if_pos hover]

lemma line_width_loop_continue (f : font) (sx : Nat) (c : Char) (rest : List Char)
    (last result cand : Nat) (lss : Option Nat) (hc : c ≠ '\n')
    (hover : ¬ cand + (f.get_metrics c).advance_x > sx) :
    line_width_loop f sx (c :: rest) last result cand lss =
      line_width_loop f sx rest (last + 1) (space_update c last result cand lss).1
        (cand + (f.get_metrics c).advance_x) (space_update c last result cand lss).2 := by
  simp only [line_width_loop, if_neg hc, if_neg hover]

lemma line_width_loop_last_ge (f : font) (sx : Nat) :
    ∀ (rem : List Char) (last result cand : Nat) (lss : Option Nat),
      last ≤ (line_width_loop f sx rem last result cand lss).last := by
  intro rem
  induction rem with
  | nil => intro last result cand lss; simp [line_width_loop_nil]
  | cons c rest ih =>
    intro last result cand lss
    by_cases hc : c = '\n'
    · subst hc; rw [line_width_loop_newline]
    · by_cases hover : cand + (f.get_metrics c).advance_x > sx
      · rw [line_width_loop_stop f sx c rest last result cand lss hc hover]
      · rw [line_width_loop_continue f sx c rest last result cand lss hc hover]
        exact Nat.le_trans (Nat.le_succ last) (ih (last + 1) _ _ _)

lemma space_update_fst_le (c : Char) (last result cand sx : Nat) (lss : Option Nat)
    (hr : result ≤ sx) (hc : cand ≤ sx) :
    (space_update c last result cand lss).1 ≤ sx := by
  unfold space_update
  split
  · cases lss <;> simpa
  · exact hr

lemma line_width_loop_le (f : font) (sx : Nat) :
    ∀ (rem : List Char) (last result cand : Nat) (lss : Option Nat),
      result ≤ sx → cand ≤ sx →
      (line_width_loop f sx rem last result cand lss).result ≤ sx ∧
        (line_width_loop f sx rem last result cand lss).candidate_length ≤ sx := by
  intro rem
  induction rem with
  | nil => intro last result cand lss hr hc; exact ⟨hr, hc⟩
  | cons c rest ih =>
    intro last result cand lss hr hc
    by_cases hnl : c = '\n'
    · subst hnl; rw [line_width_loop_newline]; exact ⟨hr, hc⟩
    · by_cases hover : cand + (f.get_metrics c).advance_x > sx
      · rw [line_width_loop_stop f sx c rest last result cand lss hnl hover]
        exact ⟨space_update_fst_le c last result cand sx lss hr hc, hc⟩
      · rw [line_width_loop_continue f sx c rest last result cand lss hnl hover]
        exact ih (last + 1) _ _ _ (space_update_fst_le c last result cand sx lss hr hc)
          (Nat.le_of_not_lt hover)

/-- Unfolding of `compute_line_width` in terms of `line_scan` and
`line_start` (definitional). -/
lemma compute_line_width_eq (tl : text_layout) (first : Nat) :
    compute_line_width tl first =
      if (line_scan tl first).last_space_sequence = none then
        if (line_scan tl first).last = tl.m_text.length ∨
            tl.m_text.getD (line_scan tl first).last ' ' = '\n' then
          (line_scan tl first).candidate_length
        else if (line_scan tl first).result = 0 then
          (line_scan tl first).candidate_length
        else (line_scan tl first).result
      else (line_scan tl first).result := rfl

/-- The `space_update` step preserves the loop invariant tying `result`
and `last_space_sequence` to the prefix advance sums. -/
lemma space_update_inv (f : font) (text : List Char) (O : Nat) (c : Char)
    (last result cand : Nat) (lss : Option Nat) (hO : O ≤ last)
    (hcand : cand = advance_total f ((text.drop O).take (last - O)))
    (hlss : ∀ s, lss = some s → O ≤ s ∧ s ≤ last ∧
      result = advance_total f ((text.drop O).take (s - O))) :
    ∀ s, (space_update c last result cand lss).2 = some s → O ≤ s ∧ s ≤ last ∧
      (space_update c last result cand lss).1 =
        advance_total f ((text.drop O).take (s - O)) := by
  intro s hs
  unfold space_update at hs ⊢
  by_cases hc : c = ' '
  · rw [if_pos hc] at hs ⊢
    cases lss with
    | none =>
      simp only at hs
      cases hs
      exact ⟨hO, Nat.le_refl last, hcand⟩
    | some s0 =>
      simp only at hs
      have heq : s0 = s := Option.some.inj hs
      subst heq
      exact hlss _ rfl
  · rw [if_neg hc] at hs
    exact absurd hs (by simp)

/-- Main invariant of the width-scan loop: starting the loop at index
`last` with the remaining text `m_text.drop last` and a candidate width
equal to the advance sum of the characters `[O, last)`, the final
candidate width is the advance sum of the characters `[O, out.last)`,
and whenever a space run is recorded at `s`, the final `result` is the
advance sum of the characters `[O, s)`. -/
lemma line_width_loop_spec (f : font) (sx : Nat) (text : List Char) (O : Nat) :
    ∀ (rem : List Char) (last result cand : Nat) (lss : Option Nat),
      rem = text.drop last → O ≤ last →
      cand = advance_total f ((text.drop O).take (last - O)) →
      (∀ s, lss = some s → O ≤ s ∧ s ≤ last ∧
        result = advance_total f ((text.drop O).take (s - O))) →
      ∀ st, st = line_width_loop f sx rem last result cand lss →
        last ≤ st.last ∧
        st.candidate_length = advance_total f ((text.drop O).take (st.last - O)) ∧
        (∀ s, st.last_space_sequence = some s → O ≤ s ∧ s ≤ st.last ∧
          st.result = advance_total f ((text.drop O).take (s - O))) := by
  intro rem
  induction rem with
  | nil =>
    intro last result cand lss _hrem hO hcand hlss st hst
    rw [line_width_loop_nil] at hst
    subst hst
    exact ⟨Nat.le_refl last, hcand, hlss⟩
  | cons c rest ih =>
    intro last result cand lss hrem hO hcand hlss st hst
    have hdrop : text.drop last = c :: rest := hrem.symm
    have hlast_lt : last < text.length := length_lt_of_drop_cons text last c rest hdrop
    have hrest : text.drop (last + 1) = rest := drop_cons text last c rest hdrop
    have hdropO : (text.drop O).drop (last - O) = c :: rest := by
      have h1 : (text.drop O).drop (last - O) = text.drop (O + (last - O)) :=
        List.drop_drop (last - O) O text
      have h2 : O + (last - O) = last := by omega
      rw [h1, h2, hdrop]
    have hsnoc : (text.drop O).take ((last - O) + 1) = (text.drop O).take (last - O) ++ [c] :=
      take_snoc_of_drop (text.drop O) (last - O) c rest hdropO
    have harith : (last + 1) - O = (last - O) + 1 := by omega
    have hcand1 : cand + (f.get_metrics c).advance_x =
        advance_total f ((text.drop O).take ((last + 1) - O)) := by
      rw [harith, hsnoc, advance_total_append, advance_total_singleton, hcand]
    by_cases hnl : c = '\n'
    · subst hnl
      rw [line_width_loop_newline] at hst
      subst hst
      exact ⟨Nat.le_refl last, hcand, hlss⟩
    · by_cases hover : cand + (f.get_metrics c).advance_x > sx
      · rw [line_width_loop_stop f sx c rest last result cand lss hnl hover] at hst
        subst hst
        refine ⟨Nat.le_refl last, hcand, ?_⟩
        exact space_update_inv f text O c last result cand lss hO hcand hlss
      · rw [line_width_loop_continue f sx c rest last result cand lss hnl hover] at hst
        have hsu := space_update_inv f text O c last result cand lss hO hcand hlss
        have hlss1 : ∀ s, (space_update c last result cand lss).2 = some s →
            O ≤ s ∧ s ≤ last + 1 ∧
            (space_update c last result cand lss).1 =
              advance_total f ((text.drop O).take (s - O)) := by
          intro s hs
          obtain ⟨h1, h2, h3⟩ := hsu s hs
          exact ⟨h1, Nat.le_succ_of_le h2, h3⟩
        have := ih (last + 1) (space_update c last result cand lss).1
          (cand + (f.get_metrics c).advance_x) (space_update c last result cand lss).2
          hrest.symm (Nat.le_succ_of_le hO) hcand1 hlss1 st hst
        exact ⟨Nat.le_trans (Nat.le_succ last) this.1, this.2⟩

/-- `line_width_loop_spec` instantiated the way `line_scan` runs it. -/
lemma line_scan_spec (tl : text_layout) (first : Nat) :
    line_start tl first ≤ (line_scan tl first).last ∧
    (line_scan tl first).candidate_length =
      line_advance_sum tl (line_start tl first) (line_scan tl first).last ∧
    (∀ s, (line_scan tl first).last_space_sequence = some s →
      line_start tl first ≤ s ∧ s ≤ (line_scan tl first).last ∧
      (line_scan tl first).result = line_advance_sum tl (line_start tl first) s) := by
  have h := line_width_loop_spec tl.m_font tl.m_size.x tl.m_text (line_start tl first)
    (tl.m_text.drop (line_start tl first)) (line_start tl first) 0 0 none rfl
    (Nat.le_refl _) (by simp [advance_total]) (by intro s hs; exact absurd hs (by simp))
    (line_scan tl first) rfl
  exact h

/-! ### Properties of the ascent-scan loop -/

lemma line_ascent_loop_nil (f : font) (sx : Nat) (result : Int) (lw : Nat) :
    line_ascent_loop f sx [] result lw = result := rfl

lemma line_ascent_loop_newline (f : font) (sx : Nat) (rest : List Char)
    (result : Int) (lw : Nat) :
    line_ascent_loop f sx ('\n' :: rest) result lw = result := by
  simp [line_ascent_loop]

lemma line_ascent_loop_stop (f : font) (sx : Nat) (c : Char) (rest : List Char)
    (result : Int) (lw : Nat) (hc : c ≠ '\n')
    (hover : lw + (f.get_metrics c).advance_x > sx) :
    line_ascent_loop f sx (c :: rest) result lw = result := by
  simp only [line_ascent_loop, if_neg hc, if_pos hover]

lemma line_ascent_loop_continue (f : font) (sx : Nat) (c : Char) (rest : List Char)
    (result : Int) (lw : Nat) (hc : c ≠ '\n')
    (hover : ¬ lw + (f.get_metrics c).advance_x > sx) :
    line_ascent_loop f sx (c :: rest) result lw =
      line_ascent_loop f sx rest
        (max result ((f.get_sprite_height c : Int) + (f.get_metrics c).bearing_y))
        (lw + (f.get_metrics c).advance_x) := by
  simp only [line_ascent_loop, if_neg hc, if_neg hover]

/-- A nonempty suffix of the text, extracted from an in-range index. -/
lemma exists_drop_cons (l : List Char) (n : Nat) (h : n < l.length) :
    ∃ c r, l.drop n = c :: r := by
  cases hd : l.drop n with
  | nil =>
    exfalso
    have hlen := congrArg List.length hd
    rw [List.length_drop] at hlen
    simp only [List.length_nil] at hlen
    omega
  | cons a b => exact ⟨a, b, rfl⟩

/-- If the text holds only spaces from `first` on, the leading-space skip
runs to the end of the text. -/
lemma find_first_not_of_space_all (text : List Char) (first : Nat)
    (hsp : ∀ c ∈ text.drop first, c = ' ') :
    find_first_not_of_space text first = text.length := by
  unfold find_first_not_of_space
  rw [skip_spaces_all (text.drop first) hsp (min first text.length)]
  have hlen : (text.drop first).length = text.length - first := List.length_drop first text
  omega

/-- If the final scan state records no space run and the scan stopped at
an in-range index, the character at the stop index is not a space (a
space at the stop would have been recorded by `space_update` in the very
iteration that stopped). -/
lemma line_width_loop_none_stop_char (f : font) (sx : Nat) (text : List Char) :
    ∀ (rem : List Char) (last result cand : Nat) (lss : Option Nat),
      rem = text.drop last →
      ∀ st, st = line_width_loop f sx rem last result cand lss →
      st.last_space_sequence = none → st.last < text.length →
      text.getD st.last ' ' ≠ ' ' := by
  intro rem
  induction rem with
  | nil =>
    intro last result cand lss hrem st hst _hnone hlt
    exfalso
    have h0 := congrArg List.length hrem
    rw [List.length_drop] at h0
    simp only [List.length_nil] at h0
    rw [line_width_loop_nil] at hst
    subst hst
    have hl : last < text.length := hlt
    omega
  | cons c rest ih =>
    intro last result cand lss hrem st hst hnone hlt
    have hdrop : text.drop last = c :: rest := hrem.symm
    have hrest : text.drop (last + 1) = rest := drop_cons text last c rest hdrop
    have hchar : text.getD last ' ' = c := getD_of_drop_cons text last c rest hdrop ' '
    by_cases hnl : c = '\n'
    · subst hnl
      rw [line_width_loop_newline] at hst
      subst hst
      show text.getD last ' ' ≠ ' '
      rw [hchar]
      decide
    · by_cases hover : cand + (f.get_metrics c).advance_x > sx
      · rw [line_width_loop_stop f sx c rest last result cand lss hnl hover] at hst
        have hc : c ≠ ' ' := by
          intro hceq
          rw [hst] at hnone
          have h2 : (space_update c last result cand lss).2 = none := hnone
          unfold space_update at h2
          rw [if_pos hceq] at h2
          cases lss with
          | none => simp only at h2; exact Option.noConfusion h2
          | some t => simp only at h2; exact Option.noConfusion h2
        subst hst
        show text.getD last ' ' ≠ ' '
        rw [hchar]
        exact hc
      · rw [line_width_loop_continue f sx c rest last result cand lss hnl hover] at hst
        exact ih (last + 1) _ _ _ hrest.symm st hst hnone hlt

/-- If the scan stopped at an in-range character that is neither a
newline nor a space, the stop was an overflow at a non-space character
and the final state records no space run (`space_update` reset it in the
stopping iteration). -/
lemma line_width_loop_nonspace_stop_lss (f : font) (sx : Nat) (text : List Char) :
    ∀ (rem : List Char) (last result cand : Nat) (lss : Option Nat),
      rem = text.drop last →
      ∀ st, st = line_width_loop f sx rem last result cand lss →
      st.last < text.length → text.getD st.last ' ' ≠ '\n' →
      text.getD st.last ' ' ≠ ' ' →
      st.last_space_sequence = none := by
  intro rem
  induction rem with
  | nil =>
    intro last result cand lss hrem st hst hlt _hnl _hsp
    exfalso
    have h0 := congrArg List.length hrem
    rw [List.length_drop] at h0
    simp only [List.length_nil] at h0
    rw [line_width_loop_nil] at hst
    subst hst
    have hl : last < text.length := hlt
    omega
  | cons c rest ih =>
    intro last result cand lss hrem st hst hlt hnl2 hsp
    have hdrop : text.drop last = c :: rest := hrem.symm
    have hrest : text.drop (last + 1) = rest := drop_cons text last c rest hdrop
    have hchar : text.getD last ' ' = c := getD_of_drop_cons text last c rest hdrop ' '
    by_cases hnl : c = '\n'
    · subst hnl
      rw [line_width_loop_newline] at hst
      subst hst
      exfalso
      apply hnl2
      show text.getD last ' ' = '\n'
      rw [hchar]
    · by_cases hover : cand + (f.get_metrics c).advance_x > sx
      · rw [line_width_loop_stop f sx c rest last result cand lss hnl hover] at hst
        have hc : c ≠ ' ' := by
          intro hceq
          apply hsp
          rw [hst]
          show text.getD last ' ' = ' '
          rw [hchar, hceq]
        subst hst
        show (space_update c last result cand lss).2 = none
        unfold space_update
        rw [if_neg hc]
      · rw [line_width_loop_continue f sx c rest last result cand lss hnl hover] at hst
        exact ih (last + 1) _ _ _ hrest.symm st hst hlt hnl2 hsp

/-- Once `result` holds the candidate width `w` recorded at the space-run
boundary `s`, and no further space run begins before the stop, the scan
loop never overwrites `result`: the entry state either still has the run
at `s` pending, or the run was closed by a non-space character just
before the current position. -/
lemma line_width_loop_keeps_result (f : font) (sx : Nat) (text : List Char) (s w : Nat) :
    ∀ (rem : List Char) (p result cand : Nat) (lss : Option Nat),
      rem = text.drop p → s < p → result = w →
      (lss = some s ∨ (lss = none ∧ text.getD (p - 1) ' ' ≠ ' ')) →
      ∀ st, st = line_width_loop f sx rem p result cand lss →
      (∀ i, i < text.length → s < i → i ≤ st.last →
        ¬ (text.getD i ' ' = ' ' ∧ text.getD (i - 1) ' ' ≠ ' ')) →
      st.result = w := by
  intro rem
  induction rem with
  | nil =>
    intro p result cand lss _hrem _hsp hres _hdisj st hst _hs_last
    rw [line_width_loop_nil] at hst
    subst hst
    exact hres
  | cons c rest ih =>
    intro p result cand lss hrem hsp hres hdisj st hst hs_last
    have hdrop : text.drop p = c :: rest := hrem.symm
    have hp_lt : p < text.length := length_lt_of_drop_cons text p c rest hdrop
    have hrest : text.drop (p + 1) = rest := drop_cons text p c rest hdrop
    have hchar : text.getD p ' ' = c := getD_of_drop_cons text p c rest hdrop ' '
    have hple : p ≤ st.last := by
      rw [hst]
      exact line_width_loop_last_ge f sx (c :: rest) p result cand lss
    by_cases hnl : c = '\n'
    · subst hnl
      rw [line_width_loop_newline] at hst
      subst hst
      exact hres
    · have hsu : (space_update c p result cand lss).1 = w ∧
          ((space_update c p result cand lss).2 = some s ∨
            ((space_update c p result cand lss).2 = none ∧
              text.getD (p + 1 - 1) ' ' ≠ ' ')) := by
        unfold space_update
        by_cases hc : c = ' '
        · rw [if_pos hc]
          cases lss with
          | none =>
            exfalso
            rcases hdisj with hd | hd
            · exact Option.noConfusion hd
            · refine hs_last p hp_lt hsp hple ⟨?_, hd.2⟩
              rw [hchar]
              exact hc
          | some t =>
            rcases hdisj with hd | hd
            · have hts : t = s := Option.some.inj hd
              exact ⟨hres, Or.inl (by simp only; rw [hts])⟩
            · exact absurd hd.1 (by simp)
        · rw [if_neg hc]
          refine ⟨hres, Or.inr ⟨rfl, ?_⟩⟩
          have harith : p + 1 - 1 = p := by omega
          rw [harith, hchar]
          exact hc
      by_cases hover : cand + (f.get_metrics c).advance_x > sx
      · rw [line_width_loop_stop f sx c rest p result cand lss hnl hover] at hst
        subst hst
        exact hsu.1
      · rw [line_width_loop_continue f sx c rest p result cand lss hnl hover] at hst
        exact ih (p + 1) (space_update c p result cand lss).1
          (cand + (f.get_metrics c).advance_x) (space_update c p result cand lss).2
          hrest.symm (by omega) hsu.1 hsu.2 st hst hs_last

/-- If `s` is the start of a space run (a space whose predecessor is not
a space), the scan reaches at least `s`, and no further space run begins
before the stop, then the final `result` is the candidate width recorded
at `s`: the advance sum of the characters `[O, s)`.  The entry state may
carry a pending earlier run (whose characters up to the current position
are all spaces); the recording at `s` overwrites any earlier record. -/
lemma line_width_loop_records_boundary (f : font) (sx : Nat) (text : List Char) (O s : Nat)
    (hs_space : text.getD s ' ' = ' ') (hs_start : text.getD (s - 1) ' ' ≠ ' ')
    (hs_len : s < text.length) :
    ∀ (rem : List Char) (last result cand : Nat) (lss : Option Nat),
      rem = text.drop last → O ≤ last → last ≤ s →
      cand = advance_total f ((text.drop O).take (last - O)) →
      (∀ t, lss = some t → O ≤ t ∧ t < last ∧
        result = advance_total f ((text.drop O).take (t - O)) ∧
        (∀ i, t ≤ i → i < last → text.getD i ' ' = ' ')) →
      ∀ st, st = line_width_loop f sx rem last result cand lss →
      s ≤ st.last →
      (∀ i, i < text.length → s < i → i ≤ st.last →
        ¬ (text.getD i ' ' = ' ' ∧ text.getD (i - 1) ' ' ≠ ' ')) →
      st.result = advance_total f ((text.drop O).take (s - O)) := by
  intro rem
  induction rem with
  | nil =>
    intro last result cand lss hrem _hO hls hcand _hlss st hst _hsle _hs_last
    exfalso
    have h0 := congrArg List.length hrem
    rw [List.length_drop] at h0
    simp only [List.length_nil] at h0
    omega
  | cons c rest ih =>
    intro last result cand lss hrem hO hls hcand hlss st hst hsle hs_last
    have hdrop : text.drop last = c :: rest := hrem.symm
    have hlast_lt : last < text.length := length_lt_of_drop_cons text last c rest hdrop
    have hrest : text.drop (last + 1) = rest := drop_cons text last c rest hdrop
    have hchar : text.getD last ' ' = c := getD_of_drop_cons text last c rest hdrop ' '
    have hdropO : (text.drop O).drop (last - O) = c :: rest := by
      have h1 : (text.drop O).drop (last - O) = text.drop (O + (last - O)) :=
        List.drop_drop (last - O) O text
      have h2 : O + (last - O) = last := by omega
      rw [h1, h2, hdrop]
    have hsnoc : (text.drop O).take ((last - O) + 1) = (text.drop O).take (last - O) ++ [c] :=
      take_snoc_of_drop (text.drop O) (last - O) c rest hdropO
    have harith : (last + 1) - O = (last - O) + 1 := by omega
    have hcand1 : cand + (f.get_metrics c).advance_x =
        advance_total f ((text.drop O).take ((last + 1) - O)) := by
      rw [harith, hsnoc, advance_total_append, advance_total_singleton, hcand]
    rcases Nat.lt_or_ge last s with hlts | hges
    · by_cases hnl : c = '\n'
      · subst hnl
        rw [line_width_loop_newline] at hst
        subst hst
        exfalso
        have hle2 : s ≤ last := hsle
        omega
      · by_cases hover : cand + (f.get_metrics c).advance_x > sx
        · rw [line_width_loop_stop f sx c rest last result cand lss hnl hover] at hst
          exfalso
          have hle2 : s ≤ last := by
            rw [hst] at hsle
            exact hsle
          omega
        · rw [line_width_loop_continue f sx c rest last result cand lss hnl hover] at hst
          refine ih (last + 1) (space_update c last result cand lss).1
            (cand + (f.get_metrics c).advance_x) (space_update c last result cand lss).2
            hrest.symm (by omega) (by omega) hcand1 ?_ st hst hsle hs_last
          intro t ht
          unfold space_update at ht ⊢
          by_cases hc : c = ' '
          · rw [if_pos hc] at ht ⊢
            cases lss with
            | none =>
              simp only at ht ⊢
              have heq : last = t := Option.some.inj ht
              subst heq
              refine ⟨hO, by omega, hcand, ?_⟩
              intro i hi1 hi2
              have hieq : i = last := by omega
              rw [hieq, hchar]
              exact hc
            | some t0 =>
              simp only at ht ⊢
              have heq : t0 = t := Option.some.inj ht
              subst heq
              obtain ⟨h1, h2, h3, h4⟩ := hlss _ rfl
              refine ⟨h1, by omega, h3, ?_⟩
              intro i hi1 hi2
              rcases Nat.lt_or_ge i last with hi | hi
              · exact h4 i hi1 hi
              · have hieq : i = last := by omega
                rw [hieq, hchar]
                exact hc
          · rw [if_neg hc] at ht
            exact absurd ht (by simp)
    · have hlast_eq : last = s := by omega
      have hcsp : c = ' ' := by
        rw [← hchar, hlast_eq]
        exact hs_space
      have hlssn : lss = none := by
        cases lss with
        | none => rfl
        | some t =>
          exfalso
          obtain ⟨_h1, h2, _h3, h4⟩ := hlss t rfl
          have hsm1 : text.getD (s - 1) ' ' = ' ' := h4 (s - 1) (by omega) (by omega)
          exact hs_start hsm1
      subst hlssn
      have hnl : c ≠ '\n' := by
        rw [hcsp]
        decide
      have hsu : space_update c last result cand none = (cand, some last) := by
        unfold space_update
        rw [if_pos hcsp]
      by_cases hover : cand + (f.get_metrics c).advance_x > sx
      · rw [line_width_loop_stop f sx c rest last result cand none hnl hover, hsu] at hst
        have hres : st.result = cand := by
          rw [hst]
        rw [hres, hcand, hlast_eq]
      · rw [line_width_loop_continue f sx c rest last result cand none hnl hover, hsu] at hst
        exact line_width_loop_keeps_result f sx text s
          (advance_total f ((text.drop O).take (s - O))) rest (last + 1) cand
          (cand + (f.get_metrics c).advance_x) (some last) hrest.symm (by omega)
          (by rw [hcand, hlast_eq]) (Or.inl (by rw [hlast_eq])) st hst hs_last

/-! ### The claims -/

/-- The width postcondition, as a helper shared by several claims. -/
lemma compute_line_width_le (tl : text_layout) (first : Nat) :
    compute_line_width tl first ≤ tl.m_size.x := by
  simp only [compute_line_width]
  have h := line_width_loop_le tl.m_font tl.m_size.x
    (tl.m_text.drop (find_first_not_of_space tl.m_text first))
    (find_first_not_of_space tl.m_text first) 0 0 none (Nat.zero_le _) (Nat.zero_le _)
  split
  · split
    · exact h.2
    · split
      · exact h.2
      · exact h.1
  · exact h.1

/-- C1: for every start index (advances and the box width being natural
numbers, hence non-negative), `compute_line_width` returns a result with
`0 <= result <= m_size.x`: the two `CLAW_POSTCOND` assertions at the end
of `compute_line_width` never fail. -/
theorem claim1_width_postcondition (tl : text_layout) (first : Nat) :
    0 ≤ compute_line_width tl first ∧ compute_line_width tl first ≤ tl.m_size.x :=
  ⟨Nat.zero_le _, compute_line_width_le tl first⟩

/-- C3 counterexample: with a font where `a` has advance 0, the space
has advance 10 and `b` has advance 30, the text `"a b"` in a box of width
25 records a breakable boundary at index 1 (a space run start) with
candidate width 0, and the scan then stops by overflow at `b` — squarely
the scenario of the claim — yet `compute_line_width` returns 10 (the full
accumulated candidate, via the `result == 0` fallback of lines 120–121),
not the candidate width 0 recorded at the boundary. -/
theorem claim3_counterexample :
    tl_c3x.m_text.getD 1 ' ' = ' ' ∧
    tl_c3x.m_text.getD 0 ' ' ≠ ' ' ∧
    1 ≤ (line_scan tl_c3x 0).last ∧
    (line_scan tl_c3x 0).last < tl_c3x.m_text.length ∧
    tl_c3x.m_text.getD (line_scan tl_c3x 0).last ' ' ≠ '\n' ∧
    line_advance_sum tl_c3x 0 1 = 0 ∧
    compute_line_width tl_c3x 0 = 10 ∧
    compute_line_width tl_c3x 0 ≠ line_advance_sum tl_c3x 0 1 := by decide

/-- C3 (amended): suppose the scan stops by overflow (not at a newline or
the end of the text), and `s` is the last breakable boundary recorded
before the stop: a space whose predecessor is not a space, at or after
the line start, at or before the stop index, with no later space run
beginning up to the stop.  If the run at `s` is still pending at the stop
(the overflowing character is a space), the returned width is the
candidate width recorded at `s`.  If the run was closed (the overflowing
character is not a space), the returned width is still the candidate
recorded at `s` — unless that recorded width is zero (possible only when
every character before the boundary has advance zero), in which case the
`result == 0` fallback returns the full accumulated candidate width
instead. -/
theorem claim3_word_boundary_break (tl : text_layout) (first s : Nat)
    (hlt : (line_scan tl first).last < tl.m_text.length)
    (hnl : tl.m_text.getD (line_scan tl first).last ' ' ≠ '\n')
    (hs_space : tl.m_text.getD s ' ' = ' ')
    (hs_start : tl.m_text.getD (s - 1) ' ' ≠ ' ')
    (hs_lo : line_start tl first ≤ s)
    (hs_hi : s ≤ (line_scan tl first).last)
    (hs_last : ∀ i, i < tl.m_text.length → s < i → i ≤ (line_scan tl first).last →
      ¬ (tl.m_text.getD i ' ' = ' ' ∧ tl.m_text.getD (i - 1) ' ' ≠ ' ')) :
    (tl.m_text.getD (line_scan tl first).last ' ' = ' ' →
      compute_line_width tl first = line_advance_sum tl (line_start tl first) s) ∧
    (tl.m_text.getD (line_scan tl first).last ' ' ≠ ' ' →
      compute_line_width tl first =
        if line_advance_sum tl (line_start tl first) s = 0 then
          line_advance_sum tl (line_start tl first) (line_scan tl first).last
        else line_advance_sum tl (line_start tl first) s) := by
  have hslen : s < tl.m_text.length := Nat.lt_of_le_of_lt hs_hi hlt
  have hres : (line_scan tl first).result = line_advance_sum tl (line_start tl first) s :=
    line_width_loop_records_boundary tl.m_font tl.m_size.x tl.m_text
      (line_start tl first) s hs_space hs_start hslen
      (tl.m_text.drop (line_start tl first)) (line_start tl first) 0 0 none rfl
      (Nat.le_refl _) hs_lo (by simp [advance_total])
      (by intro t ht; exact absurd ht (by simp))
      (line_scan tl first) rfl hs_hi hs_last
  constructor
  · intro hsp
    have hne : (line_scan tl first).last_space_sequence ≠ none := by
      intro hnone
      exact line_width_loop_none_stop_char tl.m_font tl.m_size.x tl.m_text
        (tl.m_text.drop (line_start tl first)) (line_start tl first) 0 0 none rfl
        (line_scan tl first) rfl hnone hlt hsp
    rw [compute_line_width_eq, if_neg hne]
    exact hres
  · intro hsp
    have hnone : (line_scan tl first).last_space_sequence = none :=
      line_width_loop_nonspace_stop_lss tl.m_font tl.m_size.x tl.m_text
        (tl.m_text.drop (line_start tl first)) (line_start tl first) 0 0 none rfl
        (line_scan tl first) rfl hlt hnl hsp
    rw [compute_line_width_eq, if_pos hnone]
    have hcond : ¬ ((line_scan tl first).last = tl.m_text.length ∨
        tl.m_text.getD (line_scan tl first).last ' ' = '\n') := by
      push_neg
      exact ⟨by omega, hnl⟩
    rw [if_neg hcond, hres, (line_scan_spec tl first).2.1]

/-- C3 witness for the amended claim, covering both branches: for
`"ab cd"` with advances 10 in a box of width 35 the scan overflows at `c`
with the run at index 2 already closed and a nonzero recorded candidate,
returning 20; for `"ab cde"` with advances 10 in a box of width 25 the
scan overflows at the space itself with the run pending, also returning
the recorded candidate 20. -/
theorem claim3_word_boundary_break_witness :
    compute_line_width tl_c3b 0 = 20 ∧ compute_line_width tl_c3 0 = 20 :=
  ⟨((claim3_word_boundary_break tl_c3b 0 2 (by decide) (by decide) (by decide) (by decide)
      (by decide) (by decide) (by decide)).2 (by decide)).trans (by decide),
    ((claim3_word_boundary_break tl_c3 0 2 (by decide) (by decide) (by decide) (by decide)
      (by decide) (by decide) (by decide)).1 (by decide)).trans (by decide)⟩

/-- C4 counterexample: for the text `"ab "` (advances 10) in a box of
width 100, the scan stops at the end of the text with a full accumulated
candidate width of 30 (the trailing space included), but
`compute_line_width` returns 20: the advances of trailing spaces before a
hard break are NOT included in the returned width, contradicting the
claim. -/
theorem claim4_counterexample :
    (line_scan tl_c4 0).last = tl_c4.m_text.length ∧
    (line_scan tl_c4 0).candidate_length = 30 ∧
    compute_line_width tl_c4 0 = 20 ∧
    compute_line_width tl_c4 0 ≠ (line_scan tl_c4 0).candidate_length := by decide

/-- C4 (amended): when the scan stops at a newline or at the end of the
text, `compute_line_width` returns the full accumulated candidate width
only if no space run is recorded at the stop (the line does not end in
spaces); if the line ends in a run of spaces immediately before the hard
break, the advances of that trailing run are excluded: the result is the
candidate width recorded at the start of the run. -/
theorem claim4_hard_break (tl : text_layout) (first : Nat)
    (hend : (line_scan tl first).last = tl.m_text.length ∨
      tl.m_text.getD (line_scan tl first).last ' ' = '\n') :
    ((line_scan tl first).last_space_sequence = none →
      compute_line_width tl first =
        line_advance_sum tl (line_start tl first) (line_scan tl first).last) ∧
    (∀ s, (line_scan tl first).last_space_sequence = some s →
      compute_line_width tl first = line_advance_sum tl (line_start tl first) s) := by
  constructor
  · intro hnone
    rw [compute_line_width_eq, hnone, if_pos rfl, if_pos hend]
    exact (line_scan_spec tl first).2.1
  · intro s hs
    rw [compute_line_width_eq, hs]
    have hcond : ¬ ((some s : Option Nat) = none) := by simp
    rw [if_neg hcond]
    exact ((line_scan_spec tl first).2.2 s hs).2.2

/-- C4 witness for the amended claim: on `"ab "` in a box of width 100
the scan stops at the end of the text with the space run recorded at
index 2, and the returned width is the candidate recorded there: 20. -/
theorem claim4_hard_break_witness : compute_line_width tl_c4 0 = 20 :=
  ((claim4_hard_break tl_c4 0 (by decide)).2 2 (by decide)).trans (by decide)

/-- `advance_total` over a cons cell. -/
lemma advance_total_cons (f : font) (c : Char) (l : List Char) :
    advance_total f (c :: l) = (f.get_metrics c).advance_x + advance_total f l := by
  simp [advance_total]

/-- When the remaining text contains no space, the scan loop never
records a space run: started with `result = 0` and no recorded run, it
ends with `result = 0` and no recorded run. -/
lemma line_width_loop_no_space (f : font) (sx : Nat) :
    ∀ (rem : List Char) (last cand : Nat), (∀ c ∈ rem, c ≠ ' ') →
      (line_width_loop f sx rem last 0 cand none).result = 0 ∧
      (line_width_loop f sx rem last 0 cand none).last_space_sequence = none := by
  intro rem
  induction rem with
  | nil => intro last cand _; rw [line_width_loop_nil]; exact ⟨rfl, rfl⟩
  | cons c rest ih =>
    intro last cand hns
    have hc : c ≠ ' ' := hns c (List.mem_cons_self c rest)
    have hsu : space_update c last 0 cand none = (0, none) := by
      unfold space_update; rw [if_neg hc]
    by_cases hnl : c = '\n'
    · subst hnl; rw [line_width_loop_newline]; exact ⟨rfl, rfl⟩
    · by_cases hover : cand + (f.get_metrics c).advance_x > sx
      · rw [line_width_loop_stop f sx c rest last 0 cand none hnl hover, hsu]
        exact ⟨rfl, rfl⟩
      · rw [line_width_loop_continue f sx c rest last 0 cand none hnl hover, hsu]
        exact ih (last + 1) _ (fun x hx => hns x (List.mem_cons_of_mem c hx))

/-- C5 counterexample: with a font where `a` has advance 0 and `b` has
advance 30, the text `"ab"` in a box of width 25 is a single unbroken run
of non-space characters whose scan stops by overflow, the first
advance of the first character (0) fits in the box, and yet `compute_line_width`
returns 0 — refuting the claim that the result is nonzero whenever the
advance of the first character fits. -/
theorem claim5_counterexample :
    (∀ c ∈ tl_c5x.m_text, c ≠ ' ') ∧
    (line_scan tl_c5x 0).last < tl_c5x.m_text.length ∧
    tl_c5x.m_text.getD (line_scan tl_c5x 0).last ' ' ≠ '\n' ∧
    (tl_c5x.m_font.get_metrics
      (tl_c5x.m_text.getD (line_start tl_c5x 0) ' ')).advance_x ≤ tl_c5x.m_size.x ∧
    compute_line_width tl_c5x 0 = 0 := by decide

/-- C5 (amended): if the line is a single unbroken run of non-space
characters (no space at or after the line start) and the scan stops by
overflow, `compute_line_width` returns the full candidate width
accumulated up to, but not including, the overflowing character; and the
result is nonzero whenever the advance of the first character is positive and
fits in the box. -/
theorem claim5_forced_break (tl : text_layout) (first : Nat)
    (hnosp : ∀ c ∈ tl.m_text.drop (line_start tl first), c ≠ ' ')
    (hlt : (line_scan tl first).last < tl.m_text.length)
    (hnl : tl.m_text.getD (line_scan tl first).last ' ' ≠ '\n') :
    compute_line_width tl first =
      line_advance_sum tl (line_start tl first) (line_scan tl first).last ∧
    (0 < (tl.m_font.get_metrics (tl.m_text.getD (line_start tl first) ' ')).advance_x →
      (tl.m_font.get_metrics
        (tl.m_text.getD (line_start tl first) ' ')).advance_x ≤ tl.m_size.x →
      0 < compute_line_width tl first) := by
  have hns : (line_scan tl first).result = 0 ∧
      (line_scan tl first).last_space_sequence = none :=
    line_width_loop_no_space tl.m_font tl.m_size.x
      (tl.m_text.drop (line_start tl first)) (line_start tl first) 0 hnosp
  have heq : compute_line_width tl first =
      line_advance_sum tl (line_start tl first) (line_scan tl first).last := by
    rw [compute_line_width_eq, if_pos hns.2]
    have hcond : ¬ ((line_scan tl first).last = tl.m_text.length ∨
        tl.m_text.getD (line_scan tl first).last ' ' = '\n') := by
      push_neg
      exact ⟨by omega, hnl⟩
    rw [if_neg hcond, if_pos hns.1]
    exact (line_scan_spec tl first).2.1
  refine ⟨heq, ?_⟩
  intro hpos hfit
  have hFlt : line_start tl first < tl.m_text.length :=
    Nat.lt_of_le_of_lt (line_scan_spec tl first).1 hlt
  obtain ⟨c0, r0, hdrop⟩ : ∃ c r, tl.m_text.drop (line_start tl first) = c :: r := by
    cases hd : tl.m_text.drop (line_start tl first) with
    | nil =>
      exfalso
      have hlen := congrArg List.length hd
      rw [List.length_drop] at hlen
      simp at hlen
      omega
    | cons a b => exact ⟨a, b, rfl⟩
  have hc0 : tl.m_text.getD (line_start tl first) ' ' = c0 :=
    getD_of_drop_cons _ _ _ _ hdrop ' '
  rw [hc0] at hpos hfit
  have hc0nl : c0 ≠ '\n' := by
    intro h
    have hstop : line_scan tl first = ⟨line_start tl first, 0, 0, none⟩ := by
      unfold line_scan
      rw [hdrop, h, line_width_loop_newline]
    apply hnl
    rw [hstop, hc0, h]
  have hover : ¬ 0 + (tl.m_font.get_metrics c0).advance_x > tl.m_size.x := by omega
  have hstep : line_scan tl first = line_width_loop tl.m_font tl.m_size.x r0
      (line_start tl first + 1) (space_update c0 (line_start tl first) 0 0 none).1
      (0 + (tl.m_font.get_metrics c0).advance_x)
      (space_update c0 (line_start tl first) 0 0 none).2 := by
    unfold line_scan
    rw [hdrop, line_width_loop_continue tl.m_font tl.m_size.x c0 r0
      (line_start tl first) 0 0 none hc0nl hover]
  have hlast1 : line_start tl first + 1 ≤ (line_scan tl first).last := by
    rw [hstep]
    exact line_width_loop_last_ge tl.m_font tl.m_size.x r0 (line_start tl first + 1) _ _ _
  rw [heq]
  unfold line_advance_sum
  rw [hdrop]
  obtain ⟨k, hk⟩ : ∃ k, (line_scan tl first).last - line_start tl first = k + 1 :=
    ⟨(line_scan tl first).last - line_start tl first - 1, by omega⟩
  rw [hk, List.take_succ_cons, advance_total_cons]
  omega

/-- C5 witness for the amended claim: for `"abcdef"` (no spaces, every
advance 10) in a box of width 25 the scan truncates mid-word and returns
the nonzero width 20. -/
theorem claim5_forced_break_witness :
    compute_line_width tl_c5 0 = 20 ∧ 0 < compute_line_width tl_c5 0 :=
  ⟨((claim5_forced_break tl_c5 0 (by decide) (by decide) (by decide)).1).trans (by decide),
    (claim5_forced_break tl_c5 0 (by decide) (by decide) (by decide)).2
      (by decide) (by decide)⟩

/-- C6: the overflow test of the width scan is non-strict: a character
whose advance brings the candidate width exactly to `m_size.x` (or below)
is included in the line, i.e. the scan stops at a non-newline character
exactly when adding its advance would make the candidate width strictly
exceed the box width. -/
theorem claim6_exact_fit (f : font) (sx : Nat) (c : Char) (rest : List Char)
    (last result cand : Nat) (lss : Option Nat) (hc : c ≠ '\n') :
    (line_width_loop f sx (c :: rest) last result cand lss).last = last ↔
      sx < cand + (f.get_metrics c).advance_x := by
  by_cases hover : cand + (f.get_metrics c).advance_x > sx
  · rw [line_width_loop_stop f sx c rest last result cand lss hc hover]
    exact iff_of_true rfl hover
  · rw [line_width_loop_continue f sx c rest last result cand lss hc hover]
    refine iff_of_false ?_ hover
    have := line_width_loop_last_ge f sx rest (last + 1)
      (space_update c last result cand lss).1 (cand + (f.get_metrics c).advance_x)
      (space_update c last result cand lss).2
    omega

/-- C6 witness: for the text `"ab"` with every advance 10 in a box of
width 20, the character `b` brings the candidate width exactly to the box
width and is included (the scan does not stop at it), and the computed
line width is 20. -/
theorem claim6_exact_fit_witness :
    (line_width_loop f10 20 ['b'] 1 0 10 none).last ≠ 1 ∧ compute_line_width tl_c6 0 = 20 :=
  ⟨fun h => absurd ((claim6_exact_fit f10 20 'b' [] 1 0 10 none (by decide)).mp h) (by decide),
    by decide⟩

/-- C9: the three operations are total: for every layout context and
every start index each of them terminates and returns a value.  (In this
embedding the scan loops are structurally recursive on the remaining
text, so totality is established by the definitions themselves.) -/
theorem claim9_totality (tl : text_layout) (first : Nat) :
    ∃ (w : size_type) (l : coordinate_type) (a : Int),
      compute_line_width tl first = w ∧ compute_line_left tl first = l ∧
        compute_line_height_above_baseline tl first = a :=
  ⟨_, _, _, rfl, rfl, rfl⟩

/-- C8: if the text consists only of space characters from the start
offset onward (in particular if the start offset is at or beyond the end
of the text), both the line width and the ascent are 0. -/
theorem claim8_blank_line (tl : text_layout) (first : Nat)
    (hsp : ∀ c ∈ tl.m_text.drop first, c = ' ') :
    compute_line_width tl first = 0 ∧ compute_line_height_above_baseline tl first = 0 := by
  have hF : find_first_not_of_space tl.m_text first = tl.m_text.length :=
    find_first_not_of_space_all tl.m_text first hsp
  constructor
  · have hscan : line_scan tl first = ⟨tl.m_text.length, 0, 0, none⟩ := by
      unfold line_scan line_start
      rw [hF, List.drop_length, line_width_loop_nil]
    rw [compute_line_width_eq, hscan]
    simp
  · unfold compute_line_height_above_baseline
    rw [hF, List.drop_length]
    rfl

/-- C8 witness: on the all-space text `"   "`, both queries return 0 from
start offset 0. -/
theorem claim8_blank_line_witness :
    compute_line_width tl_c8 0 = 0 ∧ compute_line_height_above_baseline tl_c8 0 = 0 :=
  claim8_blank_line tl_c8 0 (by decide)

/-- C10: if the advance of the first non-space character of the line
already exceeds the box width, both `compute_line_width` and
`compute_line_height_above_baseline` return 0: the implementation clamps
the line to zero width rather than overflowing by one character. -/
theorem claim10_narrow_box (tl : text_layout) (first : Nat)
    (hlt : line_start tl first < tl.m_text.length)
    (hwide : tl.m_size.x <
      (tl.m_font.get_metrics (tl.m_text.getD (line_start tl first) ' ')).advance_x) :
    compute_line_width tl first = 0 ∧ compute_line_height_above_baseline tl first = 0 := by
  have hlt2 : find_first_not_of_space tl.m_text first < tl.m_text.length := hlt
  obtain ⟨c0, r0, hdrop⟩ :=
    exists_drop_cons tl.m_text (find_first_not_of_space tl.m_text first) hlt2
  have hc0 : tl.m_text.getD (find_first_not_of_space tl.m_text first) ' ' = c0 :=
    getD_of_drop_cons _ _ _ _ hdrop ' '
  have hwide2 : tl.m_size.x < (tl.m_font.get_metrics c0).advance_x := by
    have h := hwide
    unfold line_start at h
    rwa [hc0] at h
  have hcsp : c0 ≠ ' ' := by
    have h := find_first_not_of_space_char tl.m_text first hlt2
    rwa [hc0] at h
  by_cases hnl : c0 = '\n'
  · have hscan : line_scan tl first = ⟨find_first_not_of_space tl.m_text first, 0, 0, none⟩ := by
      unfold line_scan line_start
      rw [hdrop, hnl, line_width_loop_newline]
    constructor
    · rw [compute_line_width_eq, hscan]
      have h2 : tl.m_text.getD (find_first_not_of_space tl.m_text first) ' ' = '\n' := by
        rw [hc0, hnl]
      simp [h2]
    · unfold compute_line_height_above_baseline
      rw [hdrop, hnl, line_ascent_loop_newline]
  · have hover : 0 + (tl.m_font.get_metrics c0).advance_x > tl.m_size.x := by omega
    have hsu : space_update c0 (find_first_not_of_space tl.m_text first) 0 0 none
        = (0, none) := by
      unfold space_update
      rw [if_neg hcsp]
    have hscan : line_scan tl first = ⟨find_first_not_of_space tl.m_text first, 0, 0, none⟩ := by
      unfold line_scan line_start
      rw [hdrop, line_width_loop_stop tl.m_font tl.m_size.x c0 r0
        (find_first_not_of_space tl.m_text first) 0 0 none hnl hover, hsu]
    constructor
    · rw [compute_line_width_eq, hscan]
      have h1 : find_first_not_of_space tl.m_text first ≠ tl.m_text.length := by omega
      have h2 : tl.m_text.getD (find_first_not_of_space tl.m_text first) ' ' ≠ '\n' := by
        rw [hc0]; exact hnl
      simp [h1, h2]
    · unfold compute_line_height_above_baseline
      rw [hdrop, line_ascent_loop_stop tl.m_font tl.m_size.x c0 r0 0 0 hnl hover]

/-- C10 witness: a one-character text `"x"` whose advance 30 exceeds the
box width 25 yields line width 0 and ascent 0. -/
theorem claim10_narrow_box_witness :
    compute_line_width tl_c10 0 = 0 ∧ compute_line_height_above_baseline tl_c10 0 = 0 :=
  claim10_narrow_box tl_c10 0 (by decide) (by decide)

/-- C7: with centered alignment, `compute_line_left` returns
`(m_size.x - line width) / 2`, and since the line width never exceeds the
box width, this equals the truncating (toward zero) division of the
non-negative difference by 2. -/
theorem claim7_centered (tl : text_layout) (first : Nat)
    (hal : tl.m_horizontal_align = horizontal_align.align_center) :
    compute_line_left tl first =
      ((tl.m_size.x : Int) - (compute_line_width tl first : Int)) / 2 ∧
    compute_line_left tl first =
      (((tl.m_size.x - compute_line_width tl first) / 2 : Nat) : Int) := by
  have hne : tl.m_horizontal_align ≠ horizontal_align.align_left := by
    rw [hal]
    intro h
    exact horizontal_align.noConfusion h
  have h1 : compute_line_left tl first =
      ((tl.m_size.x : Int) - (compute_line_width tl first : Int)) / 2 := by
    unfold compute_line_left
    rw [if_neg hne, if_pos hal]
  have hle := compute_line_width_le tl first
  refine ⟨h1, ?_⟩
  rw [h1]
  omega

/-- C7 witness: for the line of width 20 (`"ab cde"`, advances 10) in a
centered box of width 25, the left offset is `(25 - 20) / 2 = 2` with
truncating division. -/
theorem claim7_centered_witness : compute_line_left tl_c7 0 = 2 :=
  ((claim7_centered tl_c7 0 (by decide)).2).trans (by decide)

/-- C2 counterexample: two layout contexts over the text `"ab cd"` in a
box of width 35 whose fonts agree on every metric of `a` and `b` (the
characters whose advances make up the computed line width 20) and differ
only on the sprite height of the space character.  Both contexts compute
the same line width, yet their ascents differ: the ascent depends on the
trailing space, a character that `compute_line_width` does not include in
the line, refuting the claim that the two functions use identical
boundary logic including the back-off to the breakable boundary. -/
theorem claim2_counterexample :
    compute_line_width tl_c2a 0 = compute_line_width tl_c2b 0 ∧
    compute_line_width tl_c2a 0 = line_advance_sum tl_c2a 0 2 ∧
    tl_c2a.m_font.get_metrics 'a' = tl_c2b.m_font.get_metrics 'a' ∧
    tl_c2a.m_font.get_metrics 'b' = tl_c2b.m_font.get_metrics 'b' ∧
    tl_c2a.m_font.get_sprite_height 'a' = tl_c2b.m_font.get_sprite_height 'a' ∧
    tl_c2a.m_font.get_sprite_height 'b' = tl_c2b.m_font.get_sprite_height 'b' ∧
    compute_line_height_above_baseline tl_c2a 0 ≠
      compute_line_height_above_baseline tl_c2b 0 := by
  decide

/-- The ascent scan visits exactly the characters the width scan visits:
truncating the remaining text at the stop position of the width scan does not
change the ascent.  (Joint induction over the two loops, which share the
leading-space skip, the newline/end stop and the non-strict overflow
test.) -/
lemma ascent_take_width_stop (f : font) (sx : Nat) :
    ∀ (rem : List Char) (last result cand : Nat) (lss : Option Nat) (r : Int),
      line_ascent_loop f sx
        (rem.take ((line_width_loop f sx rem last result cand lss).last - last)) r cand =
      line_ascent_loop f sx rem r cand := by
  intro rem
  induction rem with
  | nil =>
    intro last result cand lss r
    rw [line_width_loop_nil]
    simp
  | cons c rest ih =>
    intro last result cand lss r
    by_cases hnl : c = '\n'
    · subst hnl
      rw [line_width_loop_newline]
      simp [line_ascent_loop_newline, line_ascent_loop_nil]
    · by_cases hover : cand + (f.get_metrics c).advance_x > sx
      · rw [line_width_loop_stop f sx c rest last result cand lss hnl hover]
        simp [line_ascent_loop_stop f sx c rest r cand hnl hover, line_ascent_loop_nil]
      · rw [line_width_loop_continue f sx c rest last result cand lss hnl hover]
        set st := line_width_loop f sx rest (last + 1)
          (space_update c last result cand lss).1
          (cand + (f.get_metrics c).advance_x)
          (space_update c last result cand lss).2 with hst
        have hge : last + 1 ≤ st.last := by
          rw [hst]
          exact line_width_loop_last_ge f sx rest (last + 1) _ _ _
        obtain ⟨k, hk⟩ : ∃ k, st.last - last = k + 1 := ⟨st.last - (last + 1), by omega⟩
        rw [hk, List.take_succ_cons,
          line_ascent_loop_continue f sx c (rest.take k) r cand hnl hover,
          line_ascent_loop_continue f sx c rest r cand hnl hover]
        have hk2 : k = st.last - (last + 1) := by omega
        rw [hk2, hst]
        exact ih (last + 1) _ _ _ _

/-- C2 (amended): `compute_line_height_above_baseline` uses the same
leading-space skip and stops its scan at exactly the index where
the scan of `compute_line_width` stops — the ascent equals the ascent computed
over just the characters strictly before that stop index, so characters
at or beyond it (in particular the overflowing word that
`compute_line_width` defers to the next line) never affect the ascent.
However, the ascent scan does not back off to the recorded breakable
boundary, so trailing spaces scanned past that boundary — excluded from
the returned width — can still affect the ascent (see the
counterexample). -/
theorem claim2_ascent_boundary (tl : text_layout) (first : Nat) :
    compute_line_height_above_baseline tl first =
      line_ascent_loop tl.m_font tl.m_size.x
        ((tl.m_text.drop (line_start tl first)).take
          ((line_scan tl first).last - line_start tl first)) 0 0 := by
  unfold compute_line_height_above_baseline line_scan line_start
  exact (ascent_take_width_stop tl.m_font tl.m_size.x
    (tl.m_text.drop (find_first_not_of_space tl.m_text first))
    (find_first_not_of_space tl.m_text first) 0 0 none 0).symm

end Bear